import Mathlib

/-!
Verification of the glisp reader (parser.go) and list utilities (listutils.go).

The token source (lexer) and the environment are external to the sources under
verification; they are modelled at their boundary: a token stream is a finite
list of tokens, and reading past its end yields the end-of-stream token, as the
spec's Token Source contract describes.  Symbol interning is modelled by
representing a symbol by its name (the spec guarantees equal names intern to
the same identity within a session).
-/

/-- Token type tags, one per token class the parser dispatches on
(parser.go, the `switch tok.typ` in ParseExpression and the peeks in
ParseList / ParseArray / ParseHash). -/
inductive TokenType where
| lparen | rparen | lsquare | rsquare | lcurly | rcurly
| dot | quoteTok | backtick | tilde | tildeAt
| symbolTok | boolTok | decimalTok | hexTok | octTok | binaryTok
| charTok | stringTok | floatTok | endTok
deriving DecidableEq, Repr

/-- A token: a type tag plus the raw text payload (spec §4.1). -/
structure Token where
typ : TokenType
str : String
deriving DecidableEq, Repr

/-- Symbolic expressions (the Sexp interface of the Go code).  `endS` is the
`SexpEnd` sentinel, `null` is `SexpNull`; a symbol carries its interned name;
`float` atoms carry the literal text (floating-point value semantics are
outside the model; no verified property inspects a float's numeric value);
`char` carries the byte the Go code stores in `SexpChar`. -/
inductive Sexp where
| null
| endS
| pair (head tail : Sexp)
| symbol (name : String)
| int (i : Int)
| bool (b : Bool)
| char (b : Nat)
| str (s : String)
| float (text : String)
| array (xs : List Sexp)

/-- Errors the modelled code can produce.  `message` stands for a Go
`errors.New` with that text; `unexpectedEnd` is `ErrUnexpectedEnd`;
`notAList` is `ErrNotAList`; `numMalformed`/`numRange` are strconv's
syntax / range failures; `runtimeFault` stands for a Go runtime panic
(out-of-bounds indexing); `fuelOut` is an artifact of the fuel-bounded
model of the mutually recursive parser and is produced by no code path
given enough fuel. -/
inductive Err where
| unexpectedEnd
| notAList
| message (s : String)
| numMalformed (s : String)
| numRange (s : String)
| runtimeFault (s : String)
| fuelOut
deriving DecidableEq, Repr

/-- Modelled from the spec: the Token Source yields an end-of-stream token
once the stream is exhausted (§4.1: the token classes include end-of-stream). -/
def endToken : Token := ⟨TokenType.endTok, ""⟩

/-- Modelled from the spec: `peek()` — non-consuming look at the next token. -/
def peekTok : List Token → Token
| [] => endToken
| t :: _ => t

/-- Modelled from the spec: `next()` — consume and return the next token. -/
def nextTok : List Token → Token × List Token
| [] => (endToken, [])
| t :: ts => (t, ts)

/-- The stream left after consuming one token. -/
def dropTok (ts : List Token) : List Token := (nextTok ts).2

/-- Modelled from the spec: `env.MakeSymbol` interns a name; equal names give
equal identity, so a symbol is represented by its name. -/
def MakeSymbol (name : String) : Sexp := Sexp.symbol name

/-- Modelled from the spec: `Cons(a, b)` builds the pair `{head: a, tail: b}`
(the cons-cell constructor the list utilities use). -/
def Cons (a b : Sexp) : Sexp := Sexp.pair a b

/-- MakeList (listutils.go): empty sequence yields Null, otherwise cons the
head onto the list of the rest. -/
def MakeList : List Sexp → Sexp
| [] => Sexp.null
| x :: xs => Cons x (MakeList xs)

/-- Modelled from the spec (§4.3): `is_list(v)` is true iff `v` is `Null` or a
pair chain every tail of which is `Null` or another pair. -/
def IsList : Sexp → Bool
| Sexp.null => true
| Sexp.pair _ t => IsList t
| _ => false

/-- The element-collecting loop of ListToArray (listutils.go): repeatedly take
the head and move to the tail; the loop only runs under the `IsList` guard, so
the non-pair, non-null case is unreachable there and collects nothing. -/
def listElems : Sexp → List Sexp
| Sexp.pair h t => h :: listElems t
| _ => []

/-- ListToArray (listutils.go): fail with NotAList unless `IsList`, otherwise
collect every head in order. -/
def ListToArray (expr : Sexp) : Except Err (List Sexp) :=
if IsList expr then Except.ok (listElems expr) else Except.error Err.notAList

/-- MapList (listutils.go).  `env.Apply fun` is external (the evaluator), so
the unary application is an injected function `f`, as the spec prescribes
(§9).  Null maps to Null; on a pair, apply `f` to the head first, abort on its
failure, then recurse on the tail; any other value is NotAList. -/
def MapList (f : Sexp → Except Err Sexp) : Sexp → Except Err Sexp
| Sexp.null => Except.ok Sexp.null
| Sexp.pair h t =>
  match f h with
  | Except.error e => Except.error e
  | Except.ok h' =>
    match MapList f t with
    | Except.error e => Except.error e
    | Except.ok t' => Except.ok (Sexp.pair h' t')
| _ => Except.error Err.notAList

/-- ConcatList (listutils.go), with the pair argument `a` passed as its two
fields.  Checks `IsList b` first; a null tail conses the head straight onto
`b`; a pair tail recurses; any other tail is NotAList. -/
def ConcatList (ahead atail b : Sexp) : Except Err Sexp :=
if IsList b then
  match atail with
  | Sexp.null => Except.ok (Cons ahead b)
  | Sexp.pair h t =>
    match ConcatList h t b with
    | Except.error e => Except.error e
    | Except.ok nt => Except.ok (Cons ahead nt)
  | _ => Except.error Err.notAList
else Except.error Err.notAList

/-- The value of one digit character, as Go strconv reads digits
(`0`-`9`, then letters valued from 10). -/
def digitVal (c : Char) : Option Nat :=
if '0' ≤ c ∧ c ≤ '9' then some (c.toNat - '0'.toNat)
else if 'a' ≤ c ∧ c ≤ 'z' then some (c.toNat - 'a'.toNat + 10)
else if 'A' ≤ c ∧ c ≤ 'Z' then some (c.toNat - 'A'.toNat + 10)
else none

/-- Accumulate a digit run in the given base; `none` on an empty run or any
character that is not a digit of the base. -/
def digitsVal (base : Nat) : List Char → Nat → Option Nat
| [], acc => some acc
| c :: cs, acc =>
  match digitVal c with
  | some d => if d < base then digitsVal base cs (acc * base + d) else none
  | none => none

/-- Sign handling of Go strconv.ParseInt: one optional leading `+` or `-`,
returning the sign and the remaining characters. -/
def signSplit : List Char → Bool × List Char
| [] => (false, [])
| c :: rest =>
  if c = '-' then (true, rest)
  else if c = '+' then (false, rest)
  else (false, c :: rest)

/-- Go strconv.ParseInt for an explicit base in {2,8,10,16} and a signed bit
size: an optional single leading sign, then a non-empty run of digits of the
base; out-of-range magnitudes fail with a range error, bad syntax with a
syntax error. -/
def parseIntGo (s : String) (base : Nat) (bitSize : Nat) : Except Err Int :=
match signSplit s.data with
| (_, []) => Except.error (Err.numMalformed s)
| (neg, d :: ds) =>
  match digitsVal base (d :: ds) 0 with
  | none => Except.error (Err.numMalformed s)
  | some n =>
    if neg then
      if 2 ^ (bitSize - 1) < n then Except.error (Err.numRange s)
      else Except.ok (-(n : Int))
    else
      if 2 ^ (bitSize - 1) ≤ n then Except.error (Err.numRange s)
      else Except.ok (n : Int)

/-- Modelled from the spec: the fixed signed integer width of `SexpInt`
(§3 atoms; 64 bits in the Go implementation). -/
def SexpIntSize : Nat := 64

/-- Go's acceptance of a decimal floating-point literal text
(strconv.ParseFloat): optional sign, a digit run with an optional fractional
part (or a bare fractional part), and an optional signed exponent.  Only the
decimal grammar is modelled, which covers every payload the lexer can
classify as a float token; the numeric value itself is not modelled. -/
def floatTextOk (s : String) : Bool :=
let body := match s.data with
  | c :: rest => if c = '-' ∨ c = '+' then rest else c :: rest
  | [] => []
let isDigit : Char → Bool := fun c => decide ('0' ≤ c ∧ c ≤ '9')
let mantissa := body.takeWhile isDigit
let afterMant := body.drop mantissa.length
let afterFrac : Option (List Char) :=
  match afterMant with
  | '.' :: rest =>
    let frac := rest.takeWhile isDigit
    if mantissa.length + frac.length = 0 then none else some (rest.drop frac.length)
  | _ => if mantissa.length = 0 then none else some afterMant
match afterFrac with
| none => false
| some [] => true
| some (e :: rest) =>
  if e = 'e' ∨ e = 'E' then
    let expBody := match rest with
      | c :: r => if c = '-' ∨ c = '+' then r else c :: r
      | [] => []
    decide (expBody ≠ []) && expBody.all isDigit
  else false

/-- The first byte of the UTF-8 encoding of a character: Go's `s[0]` on a
non-empty string whose first character is `c`. -/
def utf8Byte0 (c : Char) : Nat :=
let n := c.toNat
if n < 128 then n
else if n < 2048 then 192 + n / 64
else if n < 65536 then 224 + n / 4096
else 240 + n / 262144

/-- The name of the call head a quote-marker token synthesizes
(parser.go, the TokenQuote/TokenBacktick/TokenTilde/TokenTildeAt cases). -/
def quoteNameOf : TokenType → String
| TokenType.quoteTok => "quote"
| TokenType.backtick => "syntax-quote"
| TokenType.tilde => "unquote"
| TokenType.tildeAt => "unquote-splicing"
| _ => ""

/-- The conversion ParseExpression applies to one atom token (parser.go, the
TokenSymbol through TokenFloat cases of the switch, one-to-one): interning for
symbols, literal comparison for booleans, strconv.ParseInt at the radix of the
token type for the four integer classes, byte 0 of the payload for chars (an
out-of-bounds fault when the payload is empty), the payload itself for
strings, and strconv.ParseFloat acceptance for floats.  Non-atom token types
take the switch's default error and never reach this helper. -/
def atomResult (tok : Token) : Except Err Sexp :=
match tok.typ with
| TokenType.symbolTok => Except.ok (MakeSymbol tok.str)
| TokenType.boolTok => Except.ok (Sexp.bool (tok.str = "true"))
| TokenType.decimalTok =>
  match parseIntGo tok.str 10 SexpIntSize with
  | Except.error e => Except.error e
  | Except.ok i => Except.ok (Sexp.int i)
| TokenType.hexTok =>
  match parseIntGo tok.str 16 SexpIntSize with
  | Except.error e => Except.error e
  | Except.ok i => Except.ok (Sexp.int i)
| TokenType.octTok =>
  match parseIntGo tok.str 8 SexpIntSize with
  | Except.error e => Except.error e
  | Except.ok i => Except.ok (Sexp.int i)
| TokenType.binaryTok =>
  match parseIntGo tok.str 2 SexpIntSize with
  | Except.error e => Except.error e
  | Except.ok i => Except.ok (Sexp.int i)
| TokenType.charTok =>
  match tok.str.data with
  | [] => Except.error (Err.runtimeFault "index out of range")
  | c :: _ => Except.ok (Sexp.char (utf8Byte0 c))
| TokenType.stringTok => Except.ok (Sexp.str tok.str)
| TokenType.floatTok =>
  if floatTextOk tok.str then Except.ok (Sexp.float tok.str)
  else Except.error (Err.numMalformed tok.str)
| _ => Except.error (Err.message ("Invalid syntax, didn't know what to do with " ++ tok.str))

mutual

/-- ParseExpression (parser.go): consume one token and dispatch on its type:
the three open delimiters enter their sub-parsers, the four quote markers
parse one following expression and wrap it as the two-element call list named
by `quoteNameOf`, the end-of-stream token returns the bare `End` sentinel
without error, the stray delimiters (close paren/bracket/brace, dot) take the
switch's default syntax error, and the atom tokens convert via `atomResult`.
Fuel bounds the mutual recursion; every source-level call passes `fuel` from
an entry at `fuel + 1`, so any sufficiently fuelled run matches the Go code. -/
def ParseExpression : Nat → List Token → Except Err (Sexp × List Token)
| 0, _ => Except.error Err.fuelOut
| fuel + 1, ts =>
  match (nextTok ts).1.typ with
  | TokenType.lparen => ParseList fuel (nextTok ts).2
  | TokenType.lsquare => ParseArray fuel (nextTok ts).2 []
  | TokenType.lcurly => ParseHash fuel (nextTok ts).2 []
  | TokenType.quoteTok | TokenType.backtick | TokenType.tilde | TokenType.tildeAt =>
    match ParseExpression fuel (nextTok ts).2 with
    | Except.error e => Except.error e
    | Except.ok (expr, ts2) =>
      Except.ok (MakeList [MakeSymbol (quoteNameOf (nextTok ts).1.typ), expr], ts2)
  | TokenType.endTok => Except.ok (Sexp.endS, (nextTok ts).2)
  | _ =>
    match atomResult (nextTok ts).1 with
    | Except.error e => Except.error e
    | Except.ok v => Except.ok (v, (nextTok ts).2)

/-- ParseList (parser.go): peek; end-of-stream is UnexpectedEnd; a close paren
ends the list with Null; otherwise parse the head, then either a dotted tail
(one expression followed by a mandatory close paren, anything else being the
"extra value in dotted pair" error) or the recursively parsed remainder. -/
def ParseList : Nat → List Token → Except Err (Sexp × List Token)
| 0, _ => Except.error Err.fuelOut
| fuel + 1, ts =>
  if (peekTok ts).typ = TokenType.endTok then Except.error Err.unexpectedEnd
  else if (peekTok ts).typ = TokenType.rparen then Except.ok (Sexp.null, dropTok ts)
  else
    match ParseExpression fuel ts with
    | Except.error e => Except.error e
    | Except.ok (head, ts1) =>
      if (peekTok ts1).typ = TokenType.dot then
        match ParseExpression fuel (dropTok ts1) with
        | Except.error e => Except.error e
        | Except.ok (tl, ts2) =>
          if (nextTok ts2).1.typ = TokenType.rparen then
            Except.ok (Sexp.pair head tl, (nextTok ts2).2)
          else Except.error (Err.message "extra value in dotted pair")
      else
        match ParseList fuel ts1 with
        | Except.error e => Except.error e
        | Except.ok (tl, ts2) => Except.ok (Sexp.pair head tl, ts2)

/-- ParseArray (parser.go): the accumulation loop, with the accumulated
elements as an argument; end-of-stream is UnexpectedEnd, a close bracket
returns the array, otherwise parse an element and continue. -/
def ParseArray : Nat → List Token → List Sexp → Except Err (Sexp × List Token)
| 0, _, _ => Except.error Err.fuelOut
| fuel + 1, ts, arr =>
  if (peekTok ts).typ = TokenType.endTok then Except.error Err.unexpectedEnd
  else if (peekTok ts).typ = TokenType.rsquare then Except.ok (Sexp.array arr, dropTok ts)
  else
    match ParseExpression fuel ts with
    | Except.error e => Except.error e
    | Except.ok (expr, ts1) => ParseArray fuel ts1 (arr ++ [expr])

/-- ParseHash (parser.go): same accumulation loop as ParseArray up to the
closing brace, then returns the call-shaped list
`Pair{Symbol "hash", MakeList elems}`. -/
def ParseHash : Nat → List Token → List Sexp → Except Err (Sexp × List Token)
| 0, _, _ => Except.error Err.fuelOut
| fuel + 1, ts, arr =>
  if (peekTok ts).typ = TokenType.endTok then Except.error Err.unexpectedEnd
  else if (peekTok ts).typ = TokenType.rcurly then
    Except.ok (Sexp.pair (MakeSymbol "hash") (MakeList arr), dropTok ts)
  else
    match ParseExpression fuel ts with
    | Except.error e => Except.error e
    | Except.ok (expr, ts1) => ParseHash fuel ts1 (arr ++ [expr])

end

mutual

/-- A value is End-free when the `SexpEnd` sentinel occurs nowhere inside it
(nor is it the value itself). -/
def endFree : Sexp → Bool
| Sexp.endS => false
| Sexp.pair h t => endFree h && endFree t
| Sexp.array xs => endFreeL xs
| _ => true

/-- End-freedom of every element of a list of values. -/
def endFreeL : List Sexp → Bool
| [] => true
| x :: xs => endFree x && endFreeL xs

end

/-- The four call heads the quote markers synthesize. -/
def quoteHeads : List String := ["quote", "syntax-quote", "unquote", "unquote-splicing"]

/-- A value that is the bare End sentinel wrapped in zero or more quote-marker
call shapes: `End`, `(quote End)`, `(syntax-quote (quote End))`, ... -/
def endQuoteChain : Sexp → Bool
| Sexp.endS => true
| Sexp.pair (Sexp.symbol n) (Sexp.pair x Sexp.null) =>
  quoteHeads.contains n && endQuoteChain x
| _ => false

/-- A token stream as the lexer actually produces it: the end-of-stream token
is never an element, it only arises once the stream is exhausted. -/
def noEndInside (ts : List Token) : Bool :=
ts.all (fun t => t.typ ≠ TokenType.endTok)

/-- A value is `Null` or a pair — the two shapes MapList accepts. -/
def isNullOrPair : Sexp → Bool
| Sexp.null => true
| Sexp.pair _ _ => true
| _ => false

theorem isList_makeList (l : List Sexp) : IsList (MakeList l) = true := by
  induction l with
  | nil => rfl
  | cons x xs ih => simpa [MakeList, Cons, IsList] using ih

theorem listElems_makeList (l : List Sexp) : listElems (MakeList l) = l := by
  induction l with
  | nil => rfl
  | cons x xs ih => simp [MakeList, Cons, listElems, ih]

/-- C6: make_list and list_to_sequence round-trip: make_list of any sequence
is a proper list (the empty sequence giving Null), list_to_sequence returns
exactly that sequence in order, and list_to_sequence fails with NotAList on
every value that is not a proper list. -/
theorem makeList_listToArray_roundtrip :
    (MakeList ([] : List Sexp) = Sexp.null) ∧
    (∀ l : List Sexp,
        IsList (MakeList l) = true ∧ ListToArray (MakeList l) = Except.ok l) ∧
    (∀ v : Sexp, IsList v = false → ListToArray v = Except.error Err.notAList) := by
  refine ⟨rfl, fun l => ⟨isList_makeList l, ?_⟩, fun v hv => ?_⟩
  · simp [ListToArray, isList_makeList l, listElems_makeList l]
  · simp [ListToArray, hv]

theorem makeList_listToArray_roundtrip_witness :
    ListToArray (Sexp.pair (Sexp.int 1) (Sexp.int 2)) = Except.error Err.notAList :=
  makeList_listToArray_roundtrip.2.2 _ rfl

/-- C7: map_list applies f strictly left-to-right: a pointwise-successful f
maps a proper list elementwise in order; if f fails on the k-th element the
exact failure is returned and f is unconstrained (never consulted) on the
elements after position k; and any value that is neither Null nor a pair
fails with NotAList. -/
theorem mapList_left_to_right :
    (∀ (f : Sexp → Except Err Sexp) (l l' : List Sexp),
        List.Forall₂ (fun a b => f a = Except.ok b) l l' →
        MapList f (MakeList l) = Except.ok (MakeList l')) ∧
    (∀ (f : Sexp → Except Err Sexp) (pre rest : List Sexp) (x : Sexp) (e : Err),
        (∀ y ∈ pre, ∃ z, f y = Except.ok z) →
        f x = Except.error e →
        MapList f (MakeList (pre ++ x :: rest)) = Except.error e) ∧
    (∀ (f : Sexp → Except Err Sexp) (v : Sexp),
        isNullOrPair v = false → MapList f v = Except.error Err.notAList) := by
  refine ⟨?_, ?_, ?_⟩
  · intro f l l' h
    induction h with
    | nil => rfl
    | cons hfa _ ih =>
      simp [MakeList, Cons, MapList, hfa, ih]
  · intro f pre rest x e hpre hx
    induction pre with
    | nil => simp [MakeList, Cons, MapList, hx]
    | cons y pre' ih =>
      obtain ⟨z, hz⟩ := hpre y (List.mem_cons_self y pre')
      have ih' := ih (fun y hy => hpre y (List.mem_cons_of_mem _ hy))
      simp [MakeList, Cons, MapList, hz, ih']
  · intro f v hv
    cases v <;> simp_all [isNullOrPair, MapList]

theorem mapList_left_to_right_witness :
    MapList (fun _ => Except.error (Err.message "boom"))
        (MakeList ([] ++ Sexp.int 1 :: [Sexp.int 2])) =
      Except.error (Err.message "boom") :=
  mapList_left_to_right.2.1 _ [] [Sexp.int 2] (Sexp.int 1) _ (by simp) rfl

theorem foldr_pair_elems (l : List Sexp) (b : Sexp) (hb : IsList b = true) :
    IsList (List.foldr Sexp.pair b l) = true ∧
      listElems (List.foldr Sexp.pair b l) = l ++ listElems b := by
  induction l with
  | nil =>
    refine ⟨hb, ?_⟩
    cases b <;> simp_all [IsList, listElems]
  | cons x xs ih => simp [List.foldr, IsList, listElems, ih.1, ih.2]

/-- Structural induction along the tail spine of a value, with a single case
for every non-null, non-pair shape (the `induction` tactic cannot handle the
nested `array` constructor directly). -/
theorem sexpChainInduction (P : Sexp → Prop) (hnull : P Sexp.null)
    (hpair : ∀ h t, P t → P (Sexp.pair h t))
    (hother : ∀ v, isNullOrPair v = false → P v) : ∀ v, P v
| Sexp.null => hnull
| Sexp.pair h t => hpair h t (sexpChainInduction P hnull hpair hother t)
| Sexp.endS => hother _ rfl
| Sexp.symbol _ => hother _ rfl
| Sexp.int _ => hother _ rfl
| Sexp.bool _ => hother _ rfl
| Sexp.char _ => hother _ rfl
| Sexp.str _ => hother _ rfl
| Sexp.float _ => hother _ rfl
| Sexp.array _ => hother _ rfl

theorem concatList_ok (b : Sexp) (hb : IsList b = true) :
    ∀ atail, IsList atail = true → ∀ ahead,
      ConcatList ahead atail b =
        Except.ok (List.foldr Sexp.pair b (ahead :: listElems atail)) := by
  intro atail
  induction atail using sexpChainInduction with
  | hnull => intro _ ahead; simp [ConcatList, hb, Cons, listElems]
  | hpair h t ih =>
    intro ha ahead
    have ht : IsList t = true := by simpa [IsList] using ha
    simp [ConcatList, hb, Cons, listElems, ih ht h]
  | hother v hv =>
    intro ha
    cases v <;> simp_all [IsList, isNullOrPair]

theorem concatList_improper (b : Sexp) (hb : IsList b = true) :
    ∀ atail, IsList atail = false → ∀ ahead,
      ConcatList ahead atail b = Except.error Err.notAList := by
  intro atail
  induction atail using sexpChainInduction with
  | hnull => intro ha; simp [IsList] at ha
  | hpair h t ih =>
    intro ha ahead
    have ht : IsList t = false := by simpa [IsList] using ha
    simp [ConcatList, hb, ih ht h]
  | hother v hv =>
    intro _ ahead
    cases v <;> simp_all [ConcatList, hb, isNullOrPair]

/-- C8: concat_list on a non-empty proper list a (given as head and tail) and
a proper list b yields the chain whose elements are those of a followed by
those of b, with b itself as the final tail; the element count adds up; it
fails with NotAList when b is not a list, and when a's spine is improper. -/
theorem concatList_spec :
    (∀ (ahead atail b : Sexp), IsList atail = true → IsList b = true →
        ConcatList ahead atail b =
          Except.ok (List.foldr Sexp.pair b (ahead :: listElems atail)) ∧
        ListToArray (List.foldr Sexp.pair b (ahead :: listElems atail)) =
          Except.ok ((ahead :: listElems atail) ++ listElems b) ∧
        ((ahead :: listElems atail) ++ listElems b).length =
          (ahead :: listElems atail).length + (listElems b).length) ∧
    (∀ ahead atail b : Sexp, IsList b = false →
        ConcatList ahead atail b = Except.error Err.notAList) ∧
    (∀ ahead atail b : Sexp, IsList b = true → IsList atail = false →
        ConcatList ahead atail b = Except.error Err.notAList) := by
  refine ⟨?_, ?_, ?_⟩
  · intro ahead atail b ha hb
    have helems := foldr_pair_elems (ahead :: listElems atail) b hb
    refine ⟨concatList_ok b hb atail ha ahead, ?_, by simp; omega⟩
    rw [ListToArray]
    simp only [helems.1, if_true, helems.2]
  · intro ahead atail b hb
    cases atail <;> simp [ConcatList, hb]
  · intro ahead atail b hb ha
    exact concatList_improper b hb atail ha ahead

theorem concatList_spec_witness :
    ConcatList (Sexp.int 1) (MakeList [Sexp.int 2]) (MakeList [Sexp.int 3]) =
      Except.ok (List.foldr Sexp.pair (MakeList [Sexp.int 3])
        (Sexp.int 1 :: listElems (MakeList [Sexp.int 2]))) :=
  (concatList_spec.1 (Sexp.int 1) (MakeList [Sexp.int 2]) (MakeList [Sexp.int 3])
    (isList_makeList _) (isList_makeList _)).1

/-- C9: each integer-radix token parses its payload in its base into the one
fixed signed width: hex payload 1F gives 31, octal 017 gives 15, binary 101
gives 5; a payload whose value does not fit the width fails with a range
failure, invalid digits fail with a conversion failure, and every integer the
conversion accepts lies within the fixed signed 64-bit width.  (The radix
prefixes 0x/0b of the surface literals are stripped by the lexer, outside the
sources under verification, so the payloads here are the bare digit runs.) -/
theorem intRadix_spec :
    (ParseExpression 1 [⟨TokenType.hexTok, "1F"⟩] = Except.ok (Sexp.int 31, [])) ∧
    (ParseExpression 1 [⟨TokenType.octTok, "017"⟩] = Except.ok (Sexp.int 15, [])) ∧
    (ParseExpression 1 [⟨TokenType.binaryTok, "101"⟩] = Except.ok (Sexp.int 5, [])) ∧
    (ParseExpression 1 [⟨TokenType.decimalTok, "9223372036854775808"⟩] =
      Except.error (Err.numRange "9223372036854775808")) ∧
    (ParseExpression 1 [⟨TokenType.hexTok, "1G"⟩] =
      Except.error (Err.numMalformed "1G")) ∧
    (∀ (s : String) (base : Nat) (i : Int),
      parseIntGo s base SexpIntSize = Except.ok i → -(2 ^ 63) ≤ i ∧ i < 2 ^ 63) := by
  refine ⟨rfl, rfl, rfl, rfl, rfl, ?_⟩
  intro s base i h
  unfold parseIntGo at h
  simp only [SexpIntSize] at h
  split at h
  · exact Except.noConfusion h
  · split at h
    · exact Except.noConfusion h
    · split at h
      · split at h
        · exact Except.noConfusion h
        · simp only [Except.ok.injEq] at h
          omega
      · split at h
        · exact Except.noConfusion h
        · simp only [Except.ok.injEq] at h
          omega

theorem intRadix_spec_witness :
    -(2 ^ 63) ≤ (31 : Int) ∧ (31 : Int) < 2 ^ 63 :=
  intRadix_spec.2.2.2.2.2 "1F" 16 31 rfl

/-- C10: the char-token conversion takes byte 0 of the raw payload with no
emptiness guard: it is total (returns a char atom) exactly when the payload
is non-empty, and on an empty payload the indexing is out of bounds (a
runtime fault, not an ordinary parse error). -/
theorem charToken_byte0 :
    (∀ (fuel : Nat) (s : String), s ≠ "" →
      ∃ b, ParseExpression (fuel + 1) [⟨TokenType.charTok, s⟩] =
        Except.ok (Sexp.char b, [])) ∧
    (∀ fuel : Nat, ParseExpression (fuel + 1) [⟨TokenType.charTok, ""⟩] =
      Except.error (Err.runtimeFault "index out of range")) := by
  constructor
  · intro fuel s hs
    rcases hd : s.data with _ | ⟨c, rest⟩
    · exact absurd (by cases s; simp_all) hs
    · exact ⟨utf8Byte0 c, by simp [ParseExpression, nextTok, atomResult, hd]⟩
  · intro fuel
    simp [ParseExpression, nextTok, atomResult]

theorem charToken_byte0_witness :
    ∃ b, ParseExpression 1 [⟨TokenType.charTok, "a"⟩] = Except.ok (Sexp.char b, []) :=
  charToken_byte0.1 0 "a" (by decide)

theorem parseHash_shape :
    ∀ (fuel : Nat) (ts : List Token) (arr : List Sexp) (v : Sexp) (rest : List Token),
      ParseHash fuel ts arr = Except.ok (v, rest) →
      ∃ suf, v = Sexp.pair (MakeSymbol "hash") (MakeList (arr ++ suf)) := by
  intro fuel
  induction fuel with
  | zero =>
    intro ts arr v rest h
    exact absurd h (by simp [ParseHash])
  | succ f ih =>
    intro ts arr v rest h
    rw [ParseHash] at h
    split at h
    · exact Except.noConfusion h
    · split at h
      · simp only [Except.ok.injEq, Prod.mk.injEq] at h
        exact ⟨[], by simp [h.1]⟩
      · split at h
        · exact Except.noConfusion h
        · rename_i expr ts1 heq
          obtain ⟨suf, hsuf⟩ := ih _ _ _ _ h
          exact ⟨_ :: suf, by simpa using hsuf⟩

/-- C5: a hash literal never becomes a map in the reader: every successful
ParseHash result is the call-shaped list `(hash e1 ... en)`; the literal
`{1 2 3 4}` parses to exactly the tree of `(hash 1 2 3 4)`, and an odd
element count `{1 2 3}` is accepted without any parity check. -/
theorem hash_literal_call_shape :
    (∀ (fuel : Nat) (ts : List Token) (arr : List Sexp) (v : Sexp) (rest : List Token),
      ParseHash fuel ts arr = Except.ok (v, rest) →
      ∃ elems, v = Sexp.pair (MakeSymbol "hash") (MakeList elems)) ∧
    (ParseExpression 10 [⟨TokenType.lcurly, ""⟩, ⟨TokenType.decimalTok, "1"⟩,
        ⟨TokenType.decimalTok, "2"⟩, ⟨TokenType.decimalTok, "3"⟩,
        ⟨TokenType.decimalTok, "4"⟩, ⟨TokenType.rcurly, ""⟩] =
      ParseExpression 10 [⟨TokenType.lparen, ""⟩, ⟨TokenType.symbolTok, "hash"⟩,
        ⟨TokenType.decimalTok, "1"⟩, ⟨TokenType.decimalTok, "2"⟩,
        ⟨TokenType.decimalTok, "3"⟩, ⟨TokenType.decimalTok, "4"⟩,
        ⟨TokenType.rparen, ""⟩]) ∧
    (ParseExpression 10 [⟨TokenType.lcurly, ""⟩, ⟨TokenType.decimalTok, "1"⟩,
        ⟨TokenType.decimalTok, "2"⟩, ⟨TokenType.decimalTok, "3"⟩,
        ⟨TokenType.rcurly, ""⟩] =
      Except.ok (Sexp.pair (MakeSymbol "hash")
        (MakeList [Sexp.int 1, Sexp.int 2, Sexp.int 3]), [])) := by
  refine ⟨?_, rfl, rfl⟩
  intro fuel ts arr v rest h
  obtain ⟨suf, hsuf⟩ := parseHash_shape fuel ts arr v rest h
  exact ⟨arr ++ suf, hsuf⟩

theorem hash_literal_call_shape_witness :
    ∃ elems, Sexp.pair (MakeSymbol "hash") (MakeList [])
        = Sexp.pair (MakeSymbol "hash") (MakeList elems) :=
  hash_literal_call_shape.1 1 [⟨TokenType.rcurly, ""⟩] [] _ [] rfl

/-- C2 (amended): an end-of-stream token where a closing delimiter or element
was expected inside a list, array, or hash literal fails with UnexpectedEnd;
after a dot, however, exhausted input is consumed as the bare End tail and
the parse fails with the "extra value in dotted pair" syntax error, not with
UnexpectedEnd. -/
theorem unexpectedEnd_spec :
    (∀ (fuel : Nat) (ts : List Token), (peekTok ts).typ = TokenType.endTok →
      ParseList (fuel + 1) ts = Except.error Err.unexpectedEnd) ∧
    (∀ (fuel : Nat) (ts : List Token) (arr : List Sexp),
      (peekTok ts).typ = TokenType.endTok →
      ParseArray (fuel + 1) ts arr = Except.error Err.unexpectedEnd) ∧
    (∀ (fuel : Nat) (ts : List Token) (arr : List Sexp),
      (peekTok ts).typ = TokenType.endTok →
      ParseHash (fuel + 1) ts arr = Except.error Err.unexpectedEnd) ∧
    (ParseList 3 [⟨TokenType.decimalTok, "1"⟩, ⟨TokenType.dot, ""⟩] =
        Except.error (Err.message "extra value in dotted pair")) := by
  refine ⟨?_, ?_, ?_, rfl⟩
  · intro fuel ts h
    rw [ParseList]
    simp [h]
  · intro fuel ts arr h
    rw [ParseArray]
    simp [h]
  · intro fuel ts arr h
    rw [ParseHash]
    simp [h]

theorem unexpectedEnd_spec_witness : ParseList 1 [] = Except.error Err.unexpectedEnd :=
  unexpectedEnd_spec.1 0 [] rfl

/-- C2 counterexample: end-of-stream after the dot of `(1 .` fails with the
"extra value in dotted pair" syntax error, which is not UnexpectedEnd — the
claim's "after a dot" case does not hold as stated. -/
theorem unexpectedEnd_dot_counterexample :
    ParseExpression 4 [⟨TokenType.lparen, ""⟩, ⟨TokenType.decimalTok, "1"⟩,
        ⟨TokenType.dot, ""⟩] =
      Except.error (Err.message "extra value in dotted pair") ∧
    Err.message "extra value in dotted pair" ≠ Err.unexpectedEnd :=
  ⟨rfl, by decide⟩

theorem dropTok_eq_tail (ts : List Token) : dropTok ts = ts.tail := by
  cases ts <;> rfl

theorem nextTok_snd_suffix (ts : List Token) : (nextTok ts).2 <:+ ts := by
  cases ts with
  | nil => exact List.suffix_refl _
  | cons t ts' => exact List.suffix_cons t ts'

theorem dropTok_suffix (ts : List Token) : dropTok ts <:+ ts :=
  nextTok_snd_suffix ts

theorem atomResult_endFree (tok : Token) (v : Sexp)
    (h : atomResult tok = Except.ok v) : endFree v = true := by
  unfold atomResult at h
  split at h
  all_goals try (split at h)
  all_goals first
    | (simp only [Except.ok.injEq] at h; subst h; rfl)
    | exact Except.noConfusion h

/-- After a successful parse the remaining stream is a suffix of the input:
the parser only ever consumes from the front. -/
theorem parse_rest_suffix (fuel : Nat) :
    (∀ ts v rest, ParseExpression fuel ts = Except.ok (v, rest) → rest <:+ ts) ∧
    (∀ ts v rest, ParseList fuel ts = Except.ok (v, rest) → rest <:+ ts) ∧
    (∀ ts arr v rest, ParseArray fuel ts arr = Except.ok (v, rest) → rest <:+ ts) ∧
    (∀ ts arr v rest, ParseHash fuel ts arr = Except.ok (v, rest) → rest <:+ ts) := by
  induction fuel with
  | zero =>
    exact ⟨fun ts v rest h => by simp [ParseExpression] at h,
           fun ts v rest h => by simp [ParseList] at h,
           fun ts arr v rest h => by simp [ParseArray] at h,
           fun ts arr v rest h => by simp [ParseHash] at h⟩
  | succ f ih =>
    obtain ⟨ihE, ihL, ihA, ihH⟩ := ih
    refine ⟨?_, ?_, ?_, ?_⟩
    · intro ts v rest h
      rw [ParseExpression] at h
      split at h
      · exact (ihL _ _ _ h).trans (nextTok_snd_suffix ts)
      · exact (ihA _ _ _ _ h).trans (nextTok_snd_suffix ts)
      · exact (ihH _ _ _ _ h).trans (nextTok_snd_suffix ts)
      · rcases hI : ParseExpression f (nextTok ts).2 with e | ⟨expr, ts2⟩ <;>
          simp only [hI] at h
        · exact Except.noConfusion h
        · simp only [Except.ok.injEq, Prod.mk.injEq] at h
          obtain ⟨-, hrest⟩ := h
          subst hrest
          exact (ihE _ _ _ hI).trans (nextTok_snd_suffix ts)
      · rcases hI : ParseExpression f (nextTok ts).2 with e | ⟨expr, ts2⟩ <;>
          simp only [hI] at h
        · exact Except.noConfusion h
        · simp only [Except.ok.injEq, Prod.mk.injEq] at h
          obtain ⟨-, hrest⟩ := h
          subst hrest
          exact (ihE _ _ _ hI).trans (nextTok_snd_suffix ts)
      · rcases hI : ParseExpression f (nextTok ts).2 with e | ⟨expr, ts2⟩ <;>
          simp only [hI] at h
        · exact Except.noConfusion h
        · simp only [Except.ok.injEq, Prod.mk.injEq] at h
          obtain ⟨-, hrest⟩ := h
          subst hrest
          exact (ihE _ _ _ hI).trans (nextTok_snd_suffix ts)
      · rcases hI : ParseExpression f (nextTok ts).2 with e | ⟨expr, ts2⟩ <;>
          simp only [hI] at h
        · exact Except.noConfusion h
        · simp only [Except.ok.injEq, Prod.mk.injEq] at h
          obtain ⟨-, hrest⟩ := h
          subst hrest
          exact (ihE _ _ _ hI).trans (nextTok_snd_suffix ts)
      · simp only [Except.ok.injEq, Prod.mk.injEq] at h
        obtain ⟨-, hrest⟩ := h
        subst hrest
        exact nextTok_snd_suffix ts
      · rcases hA : atomResult (nextTok ts).1 with e | w <;> simp only [hA] at h
        · exact Except.noConfusion h
        · simp only [Except.ok.injEq, Prod.mk.injEq] at h
          obtain ⟨-, hrest⟩ := h
          subst hrest
          exact nextTok_snd_suffix ts
    · intro ts v rest h
      rw [ParseList] at h
      by_cases hend : (peekTok ts).typ = TokenType.endTok
      · rw [if_pos hend] at h
        exact Except.noConfusion h
      · rw [if_neg hend] at h
        by_cases hrp : (peekTok ts).typ = TokenType.rparen
        · rw [if_pos hrp] at h
          simp only [Except.ok.injEq, Prod.mk.injEq] at h
          obtain ⟨-, hrest⟩ := h
          subst hrest
          exact dropTok_suffix ts
        · rw [if_neg hrp] at h
          rcases hE : ParseExpression f ts with e | ⟨head, ts1⟩ <;> simp only [hE] at h
          · exact Except.noConfusion h
          · by_cases hdot : (peekTok ts1).typ = TokenType.dot
            · rw [if_pos hdot] at h
              rcases hT : ParseExpression f (dropTok ts1) with e | ⟨tl, ts2⟩ <;>
                simp only [hT] at h
              · exact Except.noConfusion h
              · by_cases hrp3 : (nextTok ts2).1.typ = TokenType.rparen
                · rw [if_pos hrp3] at h
                  simp only [Except.ok.injEq, Prod.mk.injEq] at h
                  obtain ⟨-, hrest⟩ := h
                  subst hrest
                  exact (nextTok_snd_suffix ts2).trans
                    (((ihE _ _ _ hT).trans (dropTok_suffix ts1)).trans (ihE _ _ _ hE))
                · rw [if_neg hrp3] at h
                  exact Except.noConfusion h
            · rw [if_neg hdot] at h
              rcases hL : ParseList f ts1 with e | ⟨tl, ts2⟩ <;> simp only [hL] at h
              · exact Except.noConfusion h
              · simp only [Except.ok.injEq, Prod.mk.injEq] at h
                obtain ⟨-, hrest⟩ := h
                subst hrest
                exact (ihL _ _ _ hL).trans (ihE _ _ _ hE)
    · intro ts arr v rest h
      rw [ParseArray] at h
      by_cases hend : (peekTok ts).typ = TokenType.endTok
      · rw [if_pos hend] at h
        exact Except.noConfusion h
      · rw [if_neg hend] at h
        by_cases hrs : (peekTok ts).typ = TokenType.rsquare
        · rw [if_pos hrs] at h
          simp only [Except.ok.injEq, Prod.mk.injEq] at h
          obtain ⟨-, hrest⟩ := h
          subst hrest
          exact dropTok_suffix ts
        · rw [if_neg hrs] at h
          rcases hE : ParseExpression f ts with e | ⟨expr, ts1⟩ <;> simp only [hE] at h
          · exact Except.noConfusion h
          · exact (ihA _ _ _ _ h).trans (ihE _ _ _ hE)
    · intro ts arr v rest h
      rw [ParseHash] at h
      by_cases hend : (peekTok ts).typ = TokenType.endTok
      · rw [if_pos hend] at h
        exact Except.noConfusion h
      · rw [if_neg hend] at h
        by_cases hrc : (peekTok ts).typ = TokenType.rcurly
        · rw [if_pos hrc] at h
          simp only [Except.ok.injEq, Prod.mk.injEq] at h
          obtain ⟨-, hrest⟩ := h
          subst hrest
          exact dropTok_suffix ts
        · rw [if_neg hrc] at h
          rcases hE : ParseExpression f ts with e | ⟨expr, ts1⟩ <;> simp only [hE] at h
          · exact Except.noConfusion h
          · exact (ihH _ _ _ _ h).trans (ihE _ _ _ hE)

theorem parseArray_shape :
    ∀ (fuel : Nat) (ts : List Token) (arr : List Sexp) (v : Sexp) (rest : List Token),
      ParseArray fuel ts arr = Except.ok (v, rest) →
      ∃ suf, v = Sexp.array (arr ++ suf) := by
  intro fuel
  induction fuel with
  | zero =>
    intro ts arr v rest h
    exact absurd h (by simp [ParseArray])
  | succ f ih =>
    intro ts arr v rest h
    rw [ParseArray] at h
    split at h
    · exact Except.noConfusion h
    · split at h
      · simp only [Except.ok.injEq, Prod.mk.injEq] at h
        exact ⟨[], by simp [h.1]⟩
      · split at h
        · exact Except.noConfusion h
        · rename_i expr ts1 heq
          obtain ⟨suf, hsuf⟩ := ih _ _ _ _ h
          exact ⟨_ :: suf, by simpa using hsuf⟩

theorem endFreeL_append (l1 l2 : List Sexp) :
    endFreeL (l1 ++ l2) = (endFreeL l1 && endFreeL l2) := by
  induction l1 with
  | nil => simp [endFreeL]
  | cons x xs ih => simp [endFreeL, ih, Bool.and_assoc]

theorem endFree_makeList (l : List Sexp) : endFree (MakeList l) = endFreeL l := by
  induction l with
  | nil => rfl
  | cons x xs ih => simp [MakeList, Cons, endFree, endFreeL, ih]

theorem peekTok_cons (t : Token) (l : List Token) : peekTok (t :: l) = t := rfl

theorem nextTok_cons (t : Token) (l : List Token) : nextTok (t :: l) = (t, l) := rfl

theorem dropTok_cons (t : Token) (l : List Token) : dropTok (t :: l) = l := rfl

/-- Appending further tokens after a successful parse whose value is End-free
does not disturb the parse: the same value comes back and the appended tokens
survive in the remaining stream.  (An End-carrying value arises only from
reading the virtual end-of-stream token, whose behavior the appended tokens
would change.) -/
theorem parse_extend (fuel : Nat) :
    (∀ ts ex v rest, ParseExpression fuel ts = Except.ok (v, rest) → endFree v = true →
      ParseExpression fuel (ts ++ ex) = Except.ok (v, rest ++ ex)) ∧
    (∀ ts ex v rest, ParseList fuel ts = Except.ok (v, rest) → endFree v = true →
      ParseList fuel (ts ++ ex) = Except.ok (v, rest ++ ex)) ∧
    (∀ ts arr ex v rest, ParseArray fuel ts arr = Except.ok (v, rest) → endFree v = true →
      ParseArray fuel (ts ++ ex) arr = Except.ok (v, rest ++ ex)) ∧
    (∀ ts arr ex v rest, ParseHash fuel ts arr = Except.ok (v, rest) → endFree v = true →
      ParseHash fuel (ts ++ ex) arr = Except.ok (v, rest ++ ex)) := by
  induction fuel with
  | zero =>
    exact ⟨fun ts ex v rest h _ => by simp [ParseExpression] at h,
           fun ts ex v rest h _ => by simp [ParseList] at h,
           fun ts arr ex v rest h _ => by simp [ParseArray] at h,
           fun ts arr ex v rest h _ => by simp [ParseHash] at h⟩
  | succ f ih =>
    obtain ⟨ihE, ihL, ihA, ihH⟩ := ih
    refine ⟨?_, ?_, ?_, ?_⟩
    · intro ts ex v rest h hv
      cases ts with
      | nil =>
        rw [ParseExpression] at h
        simp only [nextTok, endToken] at h
        simp only [Except.ok.injEq, Prod.mk.injEq] at h
        obtain ⟨hveq, -⟩ := h
        subst hveq
        simp [endFree] at hv
      | cons t ts' =>
        rw [ParseExpression] at h
        rw [ParseExpression]
        simp only [nextTok_cons, List.cons_append] at h ⊢
        rcases htyp : t.typ
        case lparen =>
          simp only [htyp] at h ⊢
          exact ihL _ _ _ _ h hv
        case lsquare =>
          simp only [htyp] at h ⊢
          exact ihA _ _ _ _ _ h hv
        case lcurly =>
          simp only [htyp] at h ⊢
          exact ihH _ _ _ _ _ h hv
        case endTok =>
          simp only [htyp] at h
          simp only [Except.ok.injEq, Prod.mk.injEq] at h
          obtain ⟨hveq, -⟩ := h
          subst hveq
          simp [endFree] at hv
        case rparen => simp [htyp, atomResult] at h
        case rsquare => simp [htyp, atomResult] at h
        case rcurly => simp [htyp, atomResult] at h
        case dot => simp [htyp, atomResult] at h
        case quoteTok =>
          simp only [htyp] at h ⊢
          rcases hI : ParseExpression f ts' with e | ⟨expr, ts2⟩ <;> simp only [hI] at h
          · exact Except.noConfusion h
          · simp only [Except.ok.injEq, Prod.mk.injEq] at h
            obtain ⟨hveq, hrest⟩ := h
            subst hveq
            subst hrest
            have hexpr : endFree expr = true := by
              simp [MakeList, Cons, MakeSymbol, endFree] at hv
              exact hv
            simp [ihE _ ex _ _ hI hexpr]
        case backtick =>
          simp only [htyp] at h ⊢
          rcases hI : ParseExpression f ts' with e | ⟨expr, ts2⟩ <;> simp only [hI] at h
          · exact Except.noConfusion h
          · simp only [Except.ok.injEq, Prod.mk.injEq] at h
            obtain ⟨hveq, hrest⟩ := h
            subst hveq
            subst hrest
            have hexpr : endFree expr = true := by
              simp [MakeList, Cons, MakeSymbol, endFree] at hv
              exact hv
            simp [ihE _ ex _ _ hI hexpr]
        case tilde =>
          simp only [htyp] at h ⊢
          rcases hI : ParseExpression f ts' with e | ⟨expr, ts2⟩ <;> simp only [hI] at h
          · exact Except.noConfusion h
          · simp only [Except.ok.injEq, Prod.mk.injEq] at h
            obtain ⟨hveq, hrest⟩ := h
            subst hveq
            subst hrest
            have hexpr : endFree expr = true := by
              simp [MakeList, Cons, MakeSymbol, endFree] at hv
              exact hv
            simp [ihE _ ex _ _ hI hexpr]
        case tildeAt =>
          simp only [htyp] at h ⊢
          rcases hI : ParseExpression f ts' with e | ⟨expr, ts2⟩ <;> simp only [hI] at h
          · exact Except.noConfusion h
          · simp only [Except.ok.injEq, Prod.mk.injEq] at h
            obtain ⟨hveq, hrest⟩ := h
            subst hveq
            subst hrest
            have hexpr : endFree expr = true := by
              simp [MakeList, Cons, MakeSymbol, endFree] at hv
              exact hv
            simp [ihE _ ex _ _ hI hexpr]
        case symbolTok =>
          simp only [htyp] at h ⊢
          rcases hA : atomResult t with e | w <;> simp only [hA] at h ⊢
          · exact Except.noConfusion h
          · simp only [Except.ok.injEq, Prod.mk.injEq] at h
            obtain ⟨hveq, hrest⟩ := h
            subst hveq
            subst hrest
            rfl
        case boolTok =>
          simp only [htyp] at h ⊢
          rcases hA : atomResult t with e | w <;> simp only [hA] at h ⊢
          · exact Except.noConfusion h
          · simp only [Except.ok.injEq, Prod.mk.injEq] at h
            obtain ⟨hveq, hrest⟩ := h
            subst hveq
            subst hrest
            rfl
        case decimalTok =>
          simp only [htyp] at h ⊢
          rcases hA : atomResult t with e | w <;> simp only [hA] at h ⊢
          · exact Except.noConfusion h
          · simp only [Except.ok.injEq, Prod.mk.injEq] at h
            obtain ⟨hveq, hrest⟩ := h
            subst hveq
            subst hrest
            rfl
        case hexTok =>
          simp only [htyp] at h ⊢
          rcases hA : atomResult t with e | w <;> simp only [hA] at h ⊢
          · exact Except.noConfusion h
          · simp only [Except.ok.injEq, Prod.mk.injEq] at h
            obtain ⟨hveq, hrest⟩ := h
            subst hveq
            subst hrest
            rfl
        case octTok =>
          simp only [htyp] at h ⊢
          rcases hA : atomResult t with e | w <;> simp only [hA] at h ⊢
          · exact Except.noConfusion h
          · simp only [Except.ok.injEq, Prod.mk.injEq] at h
            obtain ⟨hveq, hrest⟩ := h
            subst hveq
            subst hrest
            rfl
        case binaryTok =>
          simp only [htyp] at h ⊢
          rcases hA : atomResult t with e | w <;> simp only [hA] at h ⊢
          · exact Except.noConfusion h
          · simp only [Except.ok.injEq, Prod.mk.injEq] at h
            obtain ⟨hveq, hrest⟩ := h
            subst hveq
            subst hrest
            rfl
        case charTok =>
          simp only [htyp] at h ⊢
          rcases hA : atomResult t with e | w <;> simp only [hA] at h ⊢
          · exact Except.noConfusion h
          · simp only [Except.ok.injEq, Prod.mk.injEq] at h
            obtain ⟨hveq, hrest⟩ := h
            subst hveq
            subst hrest
            rfl
        case stringTok =>
          simp only [htyp] at h ⊢
          rcases hA : atomResult t with e | w <;> simp only [hA] at h ⊢
          · exact Except.noConfusion h
          · simp only [Except.ok.injEq, Prod.mk.injEq] at h
            obtain ⟨hveq, hrest⟩ := h
            subst hveq
            subst hrest
            rfl
        case floatTok =>
          simp only [htyp] at h ⊢
          rcases hA : atomResult t with e | w <;> simp only [hA] at h ⊢
          · exact Except.noConfusion h
          · simp only [Except.ok.injEq, Prod.mk.injEq] at h
            obtain ⟨hveq, hrest⟩ := h
            subst hveq
            subst hrest
            rfl
    · intro ts ex v rest h hv
      cases ts with
      | nil => simp [ParseList, peekTok, endToken] at h
      | cons t ts' =>
        rw [ParseList] at h
        rw [ParseList]
        simp only [peekTok_cons, List.cons_append] at h ⊢
        by_cases hend : t.typ = TokenType.endTok
        · rw [if_pos hend] at h
          exact Except.noConfusion h
        · rw [if_neg hend] at h
          rw [if_neg hend]
          by_cases hrp : t.typ = TokenType.rparen
          · rw [if_pos hrp] at h
            rw [if_pos hrp]
            simp only [Except.ok.injEq, Prod.mk.injEq] at h
            obtain ⟨hveq, hrest⟩ := h
            subst hveq
            subst hrest
            simp [dropTok, nextTok]
          · rw [if_neg hrp] at h
            rw [if_neg hrp]
            rcases hE : ParseExpression f (t :: ts') with e | ⟨head, ts1⟩ <;>
              simp only [hE] at h
            · exact Except.noConfusion h
            · by_cases hdot : (peekTok ts1).typ = TokenType.dot
              · rw [if_pos hdot] at h
                rcases hT : ParseExpression f (dropTok ts1) with e | ⟨tl, ts2⟩ <;>
                  simp only [hT] at h
                · exact Except.noConfusion h
                · by_cases hrp3 : (nextTok ts2).1.typ = TokenType.rparen
                  · rw [if_pos hrp3] at h
                    simp only [Except.ok.injEq, Prod.mk.injEq] at h
                    obtain ⟨hveq, hrest⟩ := h
                    subst hveq
                    subst hrest
                    have hh : endFree head = true := by
                      simp [endFree, Bool.and_eq_true] at hv
                      exact hv.1
                    have htl : endFree tl = true := by
                      simp [endFree, Bool.and_eq_true] at hv
                      exact hv.2
                    have hE' := ihE (t :: ts') ex head ts1 hE hh
                    simp only [List.cons_append] at hE'
                    simp only [hE']
                    cases ts1 with
                    | nil => simp [peekTok, endToken] at hdot
                    | cons u ts1' =>
                      simp only [List.cons_append, peekTok_cons] at hdot ⊢
                      rw [if_pos hdot]
                      simp only [dropTok_cons] at hT
                      have hT' := ihE ts1' ex tl ts2 hT htl
                      simp only [dropTok_cons, hT']
                      cases ts2 with
                      | nil => simp [nextTok, endToken] at hrp3
                      | cons w ts2' =>
                        simp only [List.cons_append, nextTok_cons] at hrp3 ⊢
                        rw [if_pos hrp3]
                  · rw [if_neg hrp3] at h
                    exact Except.noConfusion h
              · rw [if_neg hdot] at h
                rcases hL : ParseList f ts1 with e | ⟨tl, ts2⟩ <;> simp only [hL] at h
                · exact Except.noConfusion h
                · simp only [Except.ok.injEq, Prod.mk.injEq] at h
                  obtain ⟨hveq, hrest⟩ := h
                  subst hveq
                  subst hrest
                  have hh : endFree head = true := by
                    simp [endFree, Bool.and_eq_true] at hv
                    exact hv.1
                  have htl : endFree tl = true := by
                    simp [endFree, Bool.and_eq_true] at hv
                    exact hv.2
                  have hE' := ihE (t :: ts') ex head ts1 hE hh
                  simp only [List.cons_append] at hE'
                  simp only [hE']
                  cases ts1 with
                  | nil =>
                    cases f with
                    | zero => simp [ParseList] at hL
                    | succ f' => simp [ParseList, peekTok, endToken] at hL
                  | cons u ts1' =>
                    simp only [List.cons_append, peekTok_cons] at hdot ⊢
                    rw [if_neg hdot]
                    have hL' := ihL (u :: ts1') ex tl ts2 hL htl
                    simp only [List.cons_append] at hL'
                    simp only [hL']
    · intro ts arr ex v rest h hv
      cases ts with
      | nil => simp [ParseArray, peekTok, endToken] at h
      | cons t ts' =>
        rw [ParseArray] at h
        rw [ParseArray]
        simp only [peekTok_cons, List.cons_append] at h ⊢
        by_cases hend : t.typ = TokenType.endTok
        · rw [if_pos hend] at h
          exact Except.noConfusion h
        · rw [if_neg hend] at h
          rw [if_neg hend]
          by_cases hrs : t.typ = TokenType.rsquare
          · rw [if_pos hrs] at h
            rw [if_pos hrs]
            simp only [Except.ok.injEq, Prod.mk.injEq] at h
            obtain ⟨hveq, hrest⟩ := h
            subst hveq
            subst hrest
            simp [dropTok, nextTok]
          · rw [if_neg hrs] at h
            rw [if_neg hrs]
            rcases hE : ParseExpression f (t :: ts') with e | ⟨expr, ts1⟩ <;>
              simp only [hE] at h
            · exact Except.noConfusion h
            · obtain ⟨suf, rfl⟩ := parseArray_shape f ts1 (arr ++ [expr]) v rest h
              have hexpr : endFree expr = true := by
                simp [endFree, endFreeL_append, endFreeL, Bool.and_eq_true] at hv
                tauto
              have hE' := ihE (t :: ts') ex expr ts1 hE hexpr
              simp only [List.cons_append] at hE'
              simp only [hE']
              exact ihA ts1 (arr ++ [expr]) ex _ rest h hv
    · intro ts arr ex v rest h hv
      cases ts with
      | nil => simp [ParseHash, peekTok, endToken] at h
      | cons t ts' =>
        rw [ParseHash] at h
        rw [ParseHash]
        simp only [peekTok_cons, List.cons_append] at h ⊢
        by_cases hend : t.typ = TokenType.endTok
        · rw [if_pos hend] at h
          exact Except.noConfusion h
        · rw [if_neg hend] at h
          rw [if_neg hend]
          by_cases hrc : t.typ = TokenType.rcurly
          · rw [if_pos hrc] at h
            rw [if_pos hrc]
            simp only [Except.ok.injEq, Prod.mk.injEq] at h
            obtain ⟨hveq, hrest⟩ := h
            subst hveq
            subst hrest
            simp [dropTok, nextTok]
          · rw [if_neg hrc] at h
            rw [if_neg hrc]
            rcases hE : ParseExpression f (t :: ts') with e | ⟨expr, ts1⟩ <;>
              simp only [hE] at h
            · exact Except.noConfusion h
            · obtain ⟨suf, rfl⟩ := parseHash_shape f ts1 (arr ++ [expr]) v rest h
              have hexpr : endFree expr = true := by
                simp [endFree, MakeSymbol, endFree_makeList, endFreeL_append, endFreeL,
                  Bool.and_eq_true] at hv
                tauto
              have hE' := ihE (t :: ts') ex expr ts1 hE hexpr
              simp only [List.cons_append] at hE'
              simp only [hE']
              exact ihH ts1 (arr ++ [expr]) ex _ rest h hv

/-- A successful ParseExpression with an End-free value cannot begin with a
dot, a close paren, or the end-of-stream token: the first two take the syntax
error of the default switch case, the last returns the (not End-free) bare
sentinel. -/
theorem parse_head_not (f : Nat) (t0 : Token) (ts0 rest : List Token) (e : Sexp)
    (h : ParseExpression f (t0 :: ts0) = Except.ok (e, rest)) (hv : endFree e = true) :
    ¬t0.typ = TokenType.dot ∧ ¬t0.typ = TokenType.rparen ∧ ¬t0.typ = TokenType.endTok := by
  cases f with
  | zero => simp [ParseExpression] at h
  | succ f' =>
    rw [ParseExpression] at h
    simp only [nextTok_cons] at h
    refine ⟨?_, ?_, ?_⟩ <;> intro ht
    · simp [ht, atomResult] at h
    · simp [ht, atomResult] at h
    · simp only [ht] at h
      simp only [Except.ok.injEq, Prod.mk.injEq] at h
      obtain ⟨hveq, -⟩ := h
      subst hveq
      simp [endFree] at hv

/-- An End-free complete parse cannot come from the empty stream (which
yields the bare End sentinel). -/
theorem parse_ok_ne_nil (f : Nat) (ts rest : List Token) (e : Sexp)
    (h : ParseExpression f ts = Except.ok (e, rest)) (hv : endFree e = true) :
    ts ≠ [] := by
  intro hnil
  subst hnil
  cases f with
  | zero => simp [ParseExpression] at h
  | succ f' =>
    rw [ParseExpression] at h
    simp only [nextTok, endToken] at h
    simp only [Except.ok.injEq, Prod.mk.injEq] at h
    obtain ⟨hveq, -⟩ := h
    subst hveq
    simp [endFree] at hv

/-- C3: after the head of a list, a dot consumes exactly one further
expression as the tail and then demands an immediate close paren: with it the
parse returns the improper pair (leaving the rest of the stream untouched);
with any other token it fails with the "extra value in dotted pair" syntax
error rather than silently truncating.  Concretely, `(1 . 2)` parses to
`Pair{1, 2}` and `(1 . 2 3)` fails with that error. -/
theorem dotted_pair_spec :
    (∀ (f : Nat) (tsH tsT : List Token) (e1 e2 : Sexp),
      ParseExpression f tsH = Except.ok (e1, []) → endFree e1 = true →
      ParseExpression f tsT = Except.ok (e2, []) → endFree e2 = true →
      (∀ rest, ParseList (f + 1)
          (tsH ++ ⟨TokenType.dot, ""⟩ :: tsT ++ ⟨TokenType.rparen, ""⟩ :: rest) =
        Except.ok (Sexp.pair e1 e2, rest)) ∧
      (∀ (t : Token) (rest : List Token), ¬t.typ = TokenType.rparen →
        ParseList (f + 1) (tsH ++ ⟨TokenType.dot, ""⟩ :: tsT ++ t :: rest) =
          Except.error (Err.message "extra value in dotted pair"))) ∧
    (ParseExpression 4 [⟨TokenType.lparen, ""⟩, ⟨TokenType.decimalTok, "1"⟩,
        ⟨TokenType.dot, ""⟩, ⟨TokenType.decimalTok, "2"⟩, ⟨TokenType.rparen, ""⟩] =
      Except.ok (Sexp.pair (Sexp.int 1) (Sexp.int 2), [])) ∧
    (ParseExpression 4 [⟨TokenType.lparen, ""⟩, ⟨TokenType.decimalTok, "1"⟩,
        ⟨TokenType.dot, ""⟩, ⟨TokenType.decimalTok, "2"⟩, ⟨TokenType.decimalTok, "3"⟩,
        ⟨TokenType.rparen, ""⟩] =
      Except.error (Err.message "extra value in dotted pair")) := by
  refine ⟨?_, rfl, rfl⟩
  intro f tsH tsT e1 e2 h1 hv1 h2 hv2
  obtain ⟨t0, ts0, rfl⟩ : ∃ t0 ts0, tsH = t0 :: ts0 := by
    cases tsH with
    | nil => exact absurd rfl (parse_ok_ne_nil f [] [] e1 h1 hv1)
    | cons a b => exact ⟨a, b, rfl⟩
  obtain ⟨-, hnr, hne⟩ := parse_head_not f t0 ts0 [] e1 h1 hv1
  have key : ∀ (x : Token) (rest : List Token),
      ParseList (f + 1) ((t0 :: ts0) ++ ⟨TokenType.dot, ""⟩ :: tsT ++ x :: rest) =
        if x.typ = TokenType.rparen then Except.ok (Sexp.pair e1 e2, rest)
        else Except.error (Err.message "extra value in dotted pair") := by
    intro x rest
    rw [ParseList]
    simp only [List.append_assoc, List.cons_append, peekTok_cons]
    rw [if_neg hne, if_neg hnr]
    have h1' := (parse_extend f).1 (t0 :: ts0) (⟨TokenType.dot, ""⟩ :: (tsT ++ x :: rest))
      e1 [] h1 hv1
    simp only [List.append_assoc, List.cons_append, List.nil_append] at h1'
    rw [h1']
    simp only [peekTok_cons, if_true]
    have h2' := (parse_extend f).1 tsT (x :: rest) e2 [] h2 hv2
    simp only [List.nil_append] at h2'
    simp only [dropTok_cons, h2']
    simp only [nextTok_cons]
  refine ⟨fun rest => ?_, fun t rest ht => ?_⟩
  · rw [key ⟨TokenType.rparen, ""⟩ rest]
    rw [if_pos rfl]
  · rw [key t rest]
    rw [if_neg ht]

theorem dotted_pair_spec_witness :
    ParseList 2 [⟨TokenType.decimalTok, "1"⟩, ⟨TokenType.dot, ""⟩,
        ⟨TokenType.decimalTok, "2"⟩, ⟨TokenType.rparen, ""⟩] =
      Except.ok (Sexp.pair (Sexp.int 1) (Sexp.int 2), []) :=
  (dotted_pair_spec.1 1 [⟨TokenType.decimalTok, "1"⟩] [⟨TokenType.decimalTok, "2"⟩]
    (Sexp.int 1) (Sexp.int 2) rfl rfl rfl rfl).1 []

/-- C4: each quote marker wraps exactly the single next parsed expression as
a two-element call list, and the resulting tree is the same one obtained by
parsing the explicit call form: for every complete expression X (token
stream `ts` parsing to one End-free value), `'X`, `` `X ``, `~X`, `~@X`
produce exactly the trees of `(quote X)`, `(syntax-quote X)`, `(unquote X)`,
`(unquote-splicing X)` respectively. -/
theorem quote_markers_equiv :
    ∀ (f : Nat) (ts : List Token) (e : Sexp),
      ParseExpression f ts = Except.ok (e, []) → endFree e = true →
      (ParseExpression (f + 1) (⟨TokenType.quoteTok, ""⟩ :: ts) =
          Except.ok (Sexp.pair (MakeSymbol "quote") (Sexp.pair e Sexp.null), []) ∧
        ParseExpression (f + 3) (⟨TokenType.lparen, ""⟩ :: ⟨TokenType.symbolTok, "quote"⟩ ::
            (ts ++ [⟨TokenType.rparen, ""⟩])) =
          Except.ok (Sexp.pair (MakeSymbol "quote") (Sexp.pair e Sexp.null), [])) ∧
      (ParseExpression (f + 1) (⟨TokenType.backtick, ""⟩ :: ts) =
          Except.ok (Sexp.pair (MakeSymbol "syntax-quote") (Sexp.pair e Sexp.null), []) ∧
        ParseExpression (f + 3) (⟨TokenType.lparen, ""⟩ :: ⟨TokenType.symbolTok, "syntax-quote"⟩ ::
            (ts ++ [⟨TokenType.rparen, ""⟩])) =
          Except.ok (Sexp.pair (MakeSymbol "syntax-quote") (Sexp.pair e Sexp.null), [])) ∧
      (ParseExpression (f + 1) (⟨TokenType.tilde, ""⟩ :: ts) =
          Except.ok (Sexp.pair (MakeSymbol "unquote") (Sexp.pair e Sexp.null), []) ∧
        ParseExpression (f + 3) (⟨TokenType.lparen, ""⟩ :: ⟨TokenType.symbolTok, "unquote"⟩ ::
            (ts ++ [⟨TokenType.rparen, ""⟩])) =
          Except.ok (Sexp.pair (MakeSymbol "unquote") (Sexp.pair e Sexp.null), [])) ∧
      (ParseExpression (f + 1) (⟨TokenType.tildeAt, ""⟩ :: ts) =
          Except.ok (Sexp.pair (MakeSymbol "unquote-splicing") (Sexp.pair e Sexp.null), []) ∧
        ParseExpression (f + 3) (⟨TokenType.lparen, ""⟩ :: ⟨TokenType.symbolTok, "unquote-splicing"⟩ ::
            (ts ++ [⟨TokenType.rparen, ""⟩])) =
          Except.ok (Sexp.pair (MakeSymbol "unquote-splicing") (Sexp.pair e Sexp.null), [])) := by
  intro f ts e h hv
  cases f with
  | zero => simp [ParseExpression] at h
  | succ f' =>
    obtain ⟨t0, ts0, rfl⟩ : ∃ t0 ts0, ts = t0 :: ts0 := by
      cases ts with
      | nil => exact absurd rfl (parse_ok_ne_nil (f' + 1) [] [] e h hv)
      | cons a b => exact ⟨a, b, rfl⟩
    obtain ⟨hnd, hnr, hne⟩ := parse_head_not (f' + 1) t0 ts0 [] e h hv
    have hL1 : ParseList (f' + 1) [⟨TokenType.rparen, ""⟩] = Except.ok (Sexp.null, []) := by
      rw [ParseList]
      simp [peekTok_cons, dropTok_cons]
    have hE_ext : ParseExpression (f' + 1) ((t0 :: ts0) ++ [⟨TokenType.rparen, ""⟩]) =
        Except.ok (e, [⟨TokenType.rparen, ""⟩]) := by
      have := (parse_extend (f' + 1)).1 (t0 :: ts0) [⟨TokenType.rparen, ""⟩] e [] h hv
      simpa using this
    have hL2 : ParseList (f' + 1 + 1) ((t0 :: ts0) ++ [⟨TokenType.rparen, ""⟩]) =
        Except.ok (Sexp.pair e Sexp.null, []) := by
      rw [ParseList]
      simp only [List.cons_append, peekTok_cons]
      rw [if_neg hne, if_neg hnr]
      simp only [List.cons_append] at hE_ext
      simp only [hE_ext]
      simp [hL1, peekTok_cons]
    have hsym : ∀ name : String,
        ParseExpression (f' + 1 + 1) (⟨TokenType.symbolTok, name⟩ ::
            ((t0 :: ts0) ++ [⟨TokenType.rparen, ""⟩])) =
          Except.ok (MakeSymbol name, (t0 :: ts0) ++ [⟨TokenType.rparen, ""⟩]) := by
      intro name
      rw [ParseExpression]
      simp [nextTok_cons, atomResult]
    have hLout : ∀ name : String,
        ParseList (f' + 1 + 2) (⟨TokenType.symbolTok, name⟩ ::
            ((t0 :: ts0) ++ [⟨TokenType.rparen, ""⟩])) =
          Except.ok (Sexp.pair (MakeSymbol name) (Sexp.pair e Sexp.null), []) := by
      intro name
      rw [show f' + 1 + 2 = (f' + 1 + 1) + 1 from rfl]
      rw [ParseList]
      simp only [peekTok_cons]
      rw [if_neg (by decide), if_neg (by decide)]
      simp only [hsym name]
      simp only [List.cons_append, peekTok_cons]
      rw [if_neg hnd]
      simp only [List.cons_append] at hL2
      simp only [hL2]
    have hright : ∀ name : String,
        ParseExpression (f' + 1 + 3) (⟨TokenType.lparen, ""⟩ :: ⟨TokenType.symbolTok, name⟩ ::
            ((t0 :: ts0) ++ [⟨TokenType.rparen, ""⟩])) =
          Except.ok (Sexp.pair (MakeSymbol name) (Sexp.pair e Sexp.null), []) := by
      intro name
      rw [show f' + 1 + 3 = (f' + 1 + 2) + 1 from rfl]
      rw [ParseExpression]
      simp only [nextTok_cons]
      exact hLout name
    refine ⟨⟨?_, hright "quote"⟩, ⟨?_, hright "syntax-quote"⟩,
      ⟨?_, hright "unquote"⟩, ⟨?_, hright "unquote-splicing"⟩⟩ <;>
    · rw [ParseExpression]
      simp [nextTok_cons, h, MakeList, MakeSymbol, Cons, quoteNameOf]

theorem quote_markers_equiv_witness :
    ParseExpression 2 [⟨TokenType.quoteTok, ""⟩, ⟨TokenType.symbolTok, "x"⟩] =
        Except.ok (Sexp.pair (MakeSymbol "quote")
          (Sexp.pair (Sexp.symbol "x") Sexp.null), []) ∧
      ParseExpression 4 [⟨TokenType.lparen, ""⟩, ⟨TokenType.symbolTok, "quote"⟩,
          ⟨TokenType.symbolTok, "x"⟩, ⟨TokenType.rparen, ""⟩] =
        Except.ok (Sexp.pair (MakeSymbol "quote")
          (Sexp.pair (Sexp.symbol "x") Sexp.null), []) :=
  (quote_markers_equiv 1 [⟨TokenType.symbolTok, "x"⟩] (Sexp.symbol "x") rfl rfl).1

theorem parseList_nil_err (f : Nat) (v : Sexp) (rest : List Token) :
    ¬ParseList f [] = Except.ok (v, rest) := by
  cases f with
  | zero => simp [ParseList]
  | succ f' => simp [ParseList, peekTok, endToken]

theorem parseArray_nil_err (f : Nat) (arr : List Sexp) (v : Sexp) (rest : List Token) :
    ¬ParseArray f [] arr = Except.ok (v, rest) := by
  cases f with
  | zero => simp [ParseArray]
  | succ f' => simp [ParseArray, peekTok, endToken]

theorem parseHash_nil_err (f : Nat) (arr : List Sexp) (v : Sexp) (rest : List Token) :
    ¬ParseHash f [] arr = Except.ok (v, rest) := by
  cases f with
  | zero => simp [ParseHash]
  | succ f' => simp [ParseHash, peekTok, endToken]

theorem noEndInside_mono {l1 l2 : List Token} (hs : l1 <:+ l2)
    (h : noEndInside l2 = true) : noEndInside l1 = true := by
  simp only [noEndInside, List.all_eq_true] at *
  exact fun t ht => h t (hs.sublist.subset ht)

theorem noEndInside_cons {t : Token} {l : List Token}
    (h : noEndInside (t :: l) = true) :
    ¬t.typ = TokenType.endTok ∧ noEndInside l = true := by
  simp only [noEndInside, List.all_cons, Bool.and_eq_true, decide_eq_true_eq] at h ⊢
  exact ⟨h.1, by simpa [noEndInside, List.all_eq_true] using h.2⟩

theorem noEndInside_dropTok {l : List Token} (h : noEndInside l = true) :
    noEndInside (dropTok l) = true := by
  cases l with
  | nil => exact h
  | cons t l' => exact (noEndInside_cons h).2

/-- On a stream in which the end-of-stream token never occurs as an element
(the only streams the lexer produces), a successful list, array, or hash
parse yields an End-free value, and a successful expression parse yields
either an End-free value or a chain of quote-marker wrappings around the
bare End sentinel with the stream exhausted. -/
theorem parse_no_end (fuel : Nat) :
    (∀ ts v rest, noEndInside ts = true → ParseExpression fuel ts = Except.ok (v, rest) →
      endFree v = true ∨ (endQuoteChain v = true ∧ rest = [])) ∧
    (∀ ts v rest, noEndInside ts = true → ParseList fuel ts = Except.ok (v, rest) →
      endFree v = true) ∧
    (∀ ts arr v rest, noEndInside ts = true → endFreeL arr = true →
      ParseArray fuel ts arr = Except.ok (v, rest) → endFree v = true) ∧
    (∀ ts arr v rest, noEndInside ts = true → endFreeL arr = true →
      ParseHash fuel ts arr = Except.ok (v, rest) → endFree v = true) := by
  induction fuel with
  | zero =>
    exact ⟨fun ts v rest _ h => by simp [ParseExpression] at h,
           fun ts v rest _ h => by simp [ParseList] at h,
           fun ts arr v rest _ _ h => by simp [ParseArray] at h,
           fun ts arr v rest _ _ h => by simp [ParseHash] at h⟩
  | succ f ih =>
    obtain ⟨ihE, ihL, ihA, ihH⟩ := ih
    refine ⟨?_, ?_, ?_, ?_⟩
    · intro ts v rest hw h
      cases ts with
      | nil =>
        rw [ParseExpression] at h
        simp only [nextTok, endToken] at h
        simp only [Except.ok.injEq, Prod.mk.injEq] at h
        obtain ⟨hveq, hrest⟩ := h
        subst hveq
        subst hrest
        exact Or.inr ⟨rfl, rfl⟩
      | cons t ts' =>
        obtain ⟨hwt, hw'⟩ := noEndInside_cons hw
        rw [ParseExpression] at h
        simp only [nextTok_cons] at h
        rcases htyp : t.typ
        case lparen =>
          simp only [htyp] at h
          exact Or.inl (ihL _ _ _ hw' h)
        case lsquare =>
          simp only [htyp] at h
          exact Or.inl (ihA ts' [] v rest hw' rfl h)
        case lcurly =>
          simp only [htyp] at h
          exact Or.inl (ihH ts' [] v rest hw' rfl h)
        case endTok => exact absurd htyp hwt
        case rparen => simp [htyp, atomResult] at h
        case rsquare => simp [htyp, atomResult] at h
        case rcurly => simp [htyp, atomResult] at h
        case dot => simp [htyp, atomResult] at h
        case quoteTok =>
          simp only [htyp] at h
          rcases hI : ParseExpression f ts' with e | ⟨expr, ts2⟩ <;> simp only [hI] at h
          · exact Except.noConfusion h
          · simp only [Except.ok.injEq, Prod.mk.injEq] at h
            obtain ⟨hveq, hrest⟩ := h
            subst hveq
            subst hrest
            rcases ihE _ _ _ hw' hI with hfree | ⟨hchain, rfl⟩
            · exact Or.inl (by simp [MakeList, Cons, MakeSymbol, endFree, hfree])
            · exact Or.inr ⟨by simp [MakeList, Cons, MakeSymbol, endQuoteChain,
                quoteNameOf, quoteHeads, hchain], rfl⟩
        case backtick =>
          simp only [htyp] at h
          rcases hI : ParseExpression f ts' with e | ⟨expr, ts2⟩ <;> simp only [hI] at h
          · exact Except.noConfusion h
          · simp only [Except.ok.injEq, Prod.mk.injEq] at h
            obtain ⟨hveq, hrest⟩ := h
            subst hveq
            subst hrest
            rcases ihE _ _ _ hw' hI with hfree | ⟨hchain, rfl⟩
            · exact Or.inl (by simp [MakeList, Cons, MakeSymbol, endFree, hfree])
            · exact Or.inr ⟨by simp [MakeList, Cons, MakeSymbol, endQuoteChain,
                quoteNameOf, quoteHeads, hchain], rfl⟩
        case tilde =>
          simp only [htyp] at h
          rcases hI : ParseExpression f ts' with e | ⟨expr, ts2⟩ <;> simp only [hI] at h
          · exact Except.noConfusion h
          · simp only [Except.ok.injEq, Prod.mk.injEq] at h
            obtain ⟨hveq, hrest⟩ := h
            subst hveq
            subst hrest
            rcases ihE _ _ _ hw' hI with hfree | ⟨hchain, rfl⟩
            · exact Or.inl (by simp [MakeList, Cons, MakeSymbol, endFree, hfree])
            · exact Or.inr ⟨by simp [MakeList, Cons, MakeSymbol, endQuoteChain,
                quoteNameOf, quoteHeads, hchain], rfl⟩
        case tildeAt =>
          simp only [htyp] at h
          rcases hI : ParseExpression f ts' with e | ⟨expr, ts2⟩ <;> simp only [hI] at h
          · exact Except.noConfusion h
          · simp only [Except.ok.injEq, Prod.mk.injEq] at h
            obtain ⟨hveq, hrest⟩ := h
            subst hveq
            subst hrest
            rcases ihE _ _ _ hw' hI with hfree | ⟨hchain, rfl⟩
            · exact Or.inl (by simp [MakeList, Cons, MakeSymbol, endFree, hfree])
            · exact Or.inr ⟨by simp [MakeList, Cons, MakeSymbol, endQuoteChain,
                quoteNameOf, quoteHeads, hchain], rfl⟩
        all_goals
          simp only [htyp] at h
          rcases hA : atomResult t with e | w <;> simp only [hA] at h
          · exact Except.noConfusion h
          · simp only [Except.ok.injEq, Prod.mk.injEq] at h
            obtain ⟨hveq, -⟩ := h
            subst hveq
            exact Or.inl (atomResult_endFree t w hA)
    · intro ts v rest hw h
      cases ts with
      | nil => exact absurd h (parseList_nil_err _ _ _)
      | cons t ts' =>
        obtain ⟨hwt, hw'⟩ := noEndInside_cons hw
        rw [ParseList] at h
        simp only [peekTok_cons] at h
        rw [if_neg hwt] at h
        by_cases hrp : t.typ = TokenType.rparen
        · rw [if_pos hrp] at h
          simp only [Except.ok.injEq, Prod.mk.injEq] at h
          obtain ⟨hveq, -⟩ := h
          subst hveq
          rfl
        · rw [if_neg hrp] at h
          rcases hE : ParseExpression f (t :: ts') with e | ⟨head, ts1⟩ <;>
            simp only [hE] at h
          · exact Except.noConfusion h
          · have hw1 : noEndInside ts1 = true :=
              noEndInside_mono ((parse_rest_suffix f).1 _ _ _ hE) hw
            rcases ihE _ _ _ hw hE with hfree | ⟨hchain, rfl⟩
            · by_cases hdot : (peekTok ts1).typ = TokenType.dot
              · rw [if_pos hdot] at h
                rcases hT : ParseExpression f (dropTok ts1) with e | ⟨tl, ts2⟩ <;>
                  simp only [hT] at h
                · exact Except.noConfusion h
                · rcases ihE _ _ _ (noEndInside_dropTok hw1) hT with htfree | ⟨htchain, rfl⟩
                  · by_cases hrp3 : (nextTok ts2).1.typ = TokenType.rparen
                    · rw [if_pos hrp3] at h
                      simp only [Except.ok.injEq, Prod.mk.injEq] at h
                      obtain ⟨hveq, -⟩ := h
                      subst hveq
                      simp [endFree, hfree, htfree]
                    · rw [if_neg hrp3] at h
                      exact Except.noConfusion h
                  · simp [nextTok, endToken] at h
              · rw [if_neg hdot] at h
                rcases hL : ParseList f ts1 with e | ⟨tl, ts2⟩ <;> simp only [hL] at h
                · exact Except.noConfusion h
                · simp only [Except.ok.injEq, Prod.mk.injEq] at h
                  obtain ⟨hveq, -⟩ := h
                  subst hveq
                  simp [endFree, hfree, ihL _ _ _ hw1 hL]
            · simp only [peekTok, endToken] at h
              rw [if_neg (by decide)] at h
              rcases hL : ParseList f [] with e | ⟨tl, ts2⟩ <;> simp only [hL] at h
              · exact Except.noConfusion h
              · exact absurd hL (parseList_nil_err f tl ts2)
    · intro ts arr v rest hw harr h
      cases ts with
      | nil => exact absurd h (parseArray_nil_err _ _ _ _)
      | cons t ts' =>
        obtain ⟨hwt, hw'⟩ := noEndInside_cons hw
        rw [ParseArray] at h
        simp only [peekTok_cons] at h
        rw [if_neg hwt] at h
        by_cases hrs : t.typ = TokenType.rsquare
        · rw [if_pos hrs] at h
          simp only [Except.ok.injEq, Prod.mk.injEq] at h
          obtain ⟨hveq, -⟩ := h
          subst hveq
          simpa [endFree] using harr
        · rw [if_neg hrs] at h
          rcases hE : ParseExpression f (t :: ts') with e | ⟨expr, ts1⟩ <;>
            simp only [hE] at h
          · exact Except.noConfusion h
          · have hw1 : noEndInside ts1 = true :=
              noEndInside_mono ((parse_rest_suffix f).1 _ _ _ hE) hw
            rcases ihE _ _ _ hw hE with hfree | ⟨hchain, rfl⟩
            · exact ihA _ _ _ _ hw1
                (by simp [endFreeL_append, endFreeL, harr, hfree]) h
            · exact absurd h (parseArray_nil_err _ _ _ _)
    · intro ts arr v rest hw harr h
      cases ts with
      | nil => exact absurd h (parseHash_nil_err _ _ _ _)
      | cons t ts' =>
        obtain ⟨hwt, hw'⟩ := noEndInside_cons hw
        rw [ParseHash] at h
        simp only [peekTok_cons] at h
        rw [if_neg hwt] at h
        by_cases hrc : t.typ = TokenType.rcurly
        · rw [if_pos hrc] at h
          simp only [Except.ok.injEq, Prod.mk.injEq] at h
          obtain ⟨hveq, -⟩ := h
          subst hveq
          simpa [endFree, MakeSymbol, endFree_makeList] using harr
        · rw [if_neg hrc] at h
          rcases hE : ParseExpression f (t :: ts') with e | ⟨expr, ts1⟩ <;>
            simp only [hE] at h
          · exact Except.noConfusion h
          · have hw1 : noEndInside ts1 = true :=
              noEndInside_mono ((parse_rest_suffix f).1 _ _ _ hE) hw
            rcases ihE _ _ _ hw hE with hfree | ⟨hchain, rfl⟩
            · exact ihH _ _ _ _ hw1
                (by simp [endFreeL_append, endFreeL, harr, hfree]) h
            · exact absurd h (parseHash_nil_err _ _ _ _)

/-- C1 (amended): on every token stream the lexer can produce (no End token
occurs as a stream element), a successful parse_expression yields either a
value entirely free of the End sentinel, or — when one or more quote markers
stand immediately before exhausted input — a chain of quote-marker call
wrappings around the bare End sentinel itself, with the stream exhausted; in
particular parse_list, parse_array and parse_hash never return a value
containing End, but a quote-marker wrapping can wrap the bare sentinel. -/
theorem end_sentinel_placement :
    ∀ (fuel : Nat) (ts : List Token) (v : Sexp) (rest : List Token),
      noEndInside ts = true →
      ParseExpression fuel ts = Except.ok (v, rest) →
      endFree v = true ∨ (endQuoteChain v = true ∧ rest = []) :=
  fun fuel ts v rest hw h => (parse_no_end fuel).1 ts v rest hw h

theorem end_sentinel_placement_witness :
    endFree (MakeSymbol "x") = true ∨
      (endQuoteChain (MakeSymbol "x") = true ∧ ([] : List Token) = []) :=
  end_sentinel_placement 1 [⟨TokenType.symbolTok, "x"⟩] (MakeSymbol "x") [] rfl rfl

/-- C1 counterexample: a quote marker immediately before exhausted input
parses successfully to `(quote End)` — a Pair chain built by a quote-marker
wrapping that contains the End sentinel as an element, contradicting the
claim that End never appears inside a constructed value. -/
theorem end_inside_quote_counterexample :
    ParseExpression 2 [⟨TokenType.quoteTok, ""⟩] =
      Except.ok (Sexp.pair (MakeSymbol "quote") (Sexp.pair Sexp.endS Sexp.null), []) ∧
    endFree (Sexp.pair (MakeSymbol "quote") (Sexp.pair Sexp.endS Sexp.null)) = false :=
  ⟨rfl, rfl⟩
